import Mathlib

/-!
Verification of the transcript-tracing hook engine (`src/otel_hooks/hook.py`).

The embedding models parsed JSON records as `JsonVal`, Python dictionaries as
association lists that update in place and append fresh keys at the end
(Python's insertion-order semantics), Python strings as `List Char`
(transcripts are treated at character granularity, so byte offsets coincide
with character offsets), and external library calls (`json.loads`,
`hashlib.sha256`, `Path.resolve`) as explicit function parameters.
Functions that can raise an uncaught Python exception on some input shape
return `Except Unit`.
-/

/-- A parsed JSON value, as produced by `json.loads`.  Python `None` and JSON
`null` coincide and are both `JsonVal.null`; a missing dictionary key read via
`dict.get` also yields `JsonVal.null`. -/
inductive JsonVal where
  | null : JsonVal
  | bool (b : Bool) : JsonVal
  | num (n : Int) : JsonVal
  | str (s : String) : JsonVal
  | arr (xs : List JsonVal) : JsonVal
  | obj (fields : List (String × JsonVal)) : JsonVal

instance {ε α : Type} [DecidableEq ε] [DecidableEq α] : DecidableEq (Except ε α) :=
  fun a b =>
    match a, b with
    | .error x, .error y =>
      if h : x = y then isTrue (by rw [h]) else isFalse (fun hc => by cases hc; exact h rfl)
    | .ok x, .ok y =>
      if h : x = y then isTrue (by rw [h]) else isFalse (fun hc => by cases hc; exact h rfl)
    | .error _, .ok _ => isFalse (fun hc => by cases hc)
    | .ok _, .error _ => isFalse (fun hc => by cases hc)

/-- Python truthiness (`if v:`) on a JSON value: `None`, `False`, `0`, empty
string, empty list and empty dict are falsy. -/
def pyTruthy : JsonVal → Bool
  | .null => false
  | .bool b => b
  | .num n => n != 0
  | .str s => s != ""
  | .arr xs => !xs.isEmpty
  | .obj fs => !fs.isEmpty

/-- Python `str()` of a JSON value.  Scalar renderings follow Python; no
modelled call site formats a list or dict, so containers get a placeholder. -/
def pyStr : JsonVal → String
  | .null => "None"
  | .bool true => "True"
  | .bool false => "False"
  | .num n => toString n
  | .str s => s
  | .arr _ => "<list>"
  | .obj _ => "<dict>"

/-- Python dictionary assignment `d[k] = v` on an insertion-ordered
dictionary: an existing key keeps its position and gets the new value, a
fresh key is appended at the end. -/
def dinsert {β : Type} (l : List (String × β)) (k : String) (v : β) :
    List (String × β) :=
  if (l.map Prod.fst).contains k then
    l.map (fun p => if p.1 = k then (k, v) else p)
  else l ++ [(k, v)]

/-- Source `hook.py` line 104, `state_key`: the session fingerprint is the hash of
"session_id::transcript_path"; `hash` stands for `hashlib.sha256 hexdigest`. -/
def state_key (hash : String → String) (session_id transcript_path : String) :
    String :=
  hash (session_id ++ "::" ++ transcript_path)

/-- Metadata dictionary returned by `truncate_text`; keys absent from the
returned Python dict are `none`. -/
structure TruncMeta where
  truncated : Bool
  orig_len : Nat
  kept_len : Option Nat
  sha256 : Option String
deriving DecidableEq

/-- Python slice `s[:k]` for an integer `k`: negative `k` counts from the
end, clamped at zero. -/
def pySliceTo (s : List Char) (k : Int) : List Char :=
  if k < 0 then s.take ((s.length + k).toNat) else s.take k.toNat

/-- Source `hook.py` line 210, `truncate_text`; `hash` stands for the
`hashlib.sha256` hexdigest of the utf-8 encoding. -/
def truncate_text (hash : List Char → String) (s : Option (List Char))
    (max_chars : Int) : List Char × TruncMeta :=
  match s with
  | none => ([], ⟨false, 0, none, none⟩)
  | some s =>
    let orig_len := s.length
    if (orig_len : Int) ≤ max_chars then (s, ⟨false, orig_len, none, none⟩)
    else
      let head := pySliceTo s max_chars
      (head, ⟨true, orig_len, some head.length, some (hash s)⟩)

/-- Source `hook.py` line 154, `get_content`. -/
def get_content (msg : JsonVal) : JsonVal :=
  match msg with
  | .obj fs =>
    match List.lookup "message" fs with
    | some (.obj mfs) => (List.lookup "content" mfs).getD .null
    | _ => (List.lookup "content" fs).getD .null
  | _ => .null

/-- The `message.role` fallback of `get_role` (`hook.py` lines 165-170). -/
def roleFromMessage (fs : List (String × JsonVal)) : Option String :=
  match List.lookup "message" fs with
  | some (.obj mfs) =>
    match (List.lookup "role" mfs).getD .null with
    | .str r => if r = "user" ∨ r = "assistant" then some r else none
    | _ => none
  | _ => none

/-- The role computed by `get_role` on a dict: the `type` field when it is
`"user"`/`"assistant"`, else the `message.role` fallback. -/
def roleOf (fs : List (String × JsonVal)) : Option String :=
  match (List.lookup "type" fs).getD .null with
  | .str s => if s = "user" ∨ s = "assistant" then some s else roleFromMessage fs
  | _ => roleFromMessage fs

/-- Source `hook.py` line 161, `get_role`.  `msg.get` raises `AttributeError` when
`msg` is not a dict, hence the `Except`; on a dict it is total. -/
def get_role (msg : JsonVal) : Except Unit (Option String) :=
  match msg with
  | .obj fs => .ok (roleOf fs)
  | _ => .error ()

/-- Python `isinstance(x, dict) and x.get("type") == t`. -/
def typeIs (x : JsonVal) (t : String) : Bool :=
  match x with
  | .obj fs =>
    match List.lookup "type" fs with
    | some (.str s) => s = t
    | _ => false
  | _ => false

/-- The value of `is_tool_result` on a dict: a user-role message whose
content list holds a `tool_result` fragment. -/
def tool_result_flag (fs : List (String × JsonVal)) : Bool :=
  if roleOf fs ≠ some "user" then false
  else
    match get_content (.obj fs) with
    | .arr xs => xs.any (typeIs · "tool_result")
    | _ => false

/-- Source `hook.py` line 172, `is_tool_result`: raises exactly when `get_role`
does (non-dict input). -/
def is_tool_result (msg : JsonVal) : Except Unit Bool :=
  match msg with
  | .obj fs => .ok (tool_result_flag fs)
  | _ => .error ()

/-- Source `hook.py` line 181, `iter_tool_results`. -/
def iter_tool_results (content : JsonVal) : List JsonVal :=
  match content with
  | .arr xs => xs.filter (typeIs · "tool_result")
  | _ => []

/-- The loop body of `extract_text` (`hook.py` lines 202-206): a text-typed
dict fragment contributes `x.get("text", "")`, a plain string element
contributes itself, everything else is skipped. -/
def extract_part (x : JsonVal) : Option JsonVal :=
  match x with
  | .obj fs =>
    if typeIs (.obj fs) "text" then some ((List.lookup "text" fs).getD (.str ""))
    else none
  | .str s => some (.str s)
  | _ => none

/-- Source `hook.py` line 197, `extract_text`.  `"\n".join` raises `TypeError` when
a kept part is not a string, hence the `Except`. -/
def extract_text (content : JsonVal) : Except Unit String :=
  match content with
  | .str s => .ok s
  | .arr xs =>
    let parts : List JsonVal := xs.filterMap extract_part
    let kept := parts.filter pyTruthy
    if kept.all (fun p => match p with | .str _ => true | _ => false) then
      .ok (String.intercalate "\n" (kept.filterMap fun p =>
        match p with | .str s => some s | _ => none))
    else .error ()
  | _ => .ok ""

/-- The id computed by `get_message_id` on a dict: `message.id` when it is
a non-empty string. -/
def message_id_of (fs : List (String × JsonVal)) : Option String :=
  match List.lookup "message" fs with
  | some (.obj mfs) =>
    match List.lookup "id" mfs with
    | some (.str s) => if s ≠ "" then some s else none
    | _ => none
  | _ => none

/-- Source `hook.py` line 225, `get_message_id`. -/
def get_message_id (msg : JsonVal) : Except Unit (Option String) :=
  match msg with
  | .obj fs => .ok (message_id_of fs)
  | _ => .error ()

/-- Source `hook.py` line 234, the per-session cursor record `SessionState`. -/
structure SessionState where
  offset : Nat
  buffer : List Char
  turn_count : Nat
deriving DecidableEq

/-- Prepend a character onto the first fragment of a non-empty fragment
list (the `else` step of Python's `str.split`). -/
def consHead (c : Char) : List (List Char) → List (List Char)
  | [] => [[c]]
  | l :: ls => (c :: l) :: ls

/-- Python `combined.split("\n")`: the list of newline-separated fragments,
always non-empty, with `[""]` for the empty string. -/
def splitNl : List Char → List (List Char)
  | [] => [[]]
  | c :: rest => if c = '\n' then [] :: splitNl rest else consHead c (splitNl rest)

/-- Merge a carried fragment onto the head of a fragment list. -/
def mergeHead (x : List Char) : List (List Char) → List (List Char)
  | [] => [x]
  | l :: ls => (x ++ l) :: ls

/-- Python `str.strip()`: drop leading and trailing whitespace. -/
def pyStrip (l : List Char) : List Char :=
  ((l.dropWhile Char.isWhitespace).reverse.dropWhile Char.isWhitespace).reverse

/-- The loop body of `read_new_jsonl` (`hook.py` lines 278-285): strip the
line, skip it when blank, feed it to `json.loads` and drop it when that
raises (`parse` returning `none`). -/
def parse_stripped_line (parse : List Char → Option JsonVal) (line : List Char) :
    Option JsonVal :=
  let stripped := pyStrip line
  if stripped.isEmpty then none else parse stripped

/-- Source `hook.py` line 256, `read_new_jsonl`.  The transcript is `none` when the
path does not exist; `read_ok` is false when `open`/`seek`/`read` raises (the
`except` branch at line 264); `parse` stands for `json.loads`, `none` meaning
it raised and the line is dropped.  `f.tell()` after reading everything from
`ss.offset` is `max ss.offset content.length` (seeking beyond the end is
allowed and reads nothing). -/
def read_new_jsonl (parse : List Char → Option JsonVal) (file : Option (List Char))
    (read_ok : Bool) (ss : SessionState) : List JsonVal × SessionState :=
  match file with
  | none => ([], ss)
  | some content =>
    if !read_ok then ([], ss)
    else
      let chunk := content.drop ss.offset
      let new_offset := max ss.offset content.length
      if chunk.isEmpty then ([], ss)
      else
        let lines := splitNl (ss.buffer ++ chunk)
        (lines.dropLast.filterMap (parse_stripped_line parse),
         ⟨new_offset, lines.getLastD [], ss.turn_count⟩)

/-- Source `hook.py` line 289, the `Turn` record. -/
structure Turn where
  user_msg : JsonVal
  assistant_msgs : List JsonVal
  tool_results_by_id : List (String × JsonVal)

/-- The running accumulators of `build_turns` (`hook.py` lines 296-300). -/
structure BState where
  turns : List Turn
  current_user : Option JsonVal
  assistant_order : List String
  assistant_latest : List (String × JsonVal)
  tool_results_by_id : List (String × JsonVal)

/-- Function `flush_turn` inside `build_turns` (`hook.py` line 302): emit the open
turn when it has at least one assistant reply. -/
def flush_turn (st : BState) : BState :=
  match st.current_user with
  | none => st
  | some u =>
    if st.assistant_latest.isEmpty then st
    else
      { st with turns := st.turns ++
          [⟨u, st.assistant_order.filterMap (fun mid => List.lookup mid st.assistant_latest),
            st.tool_results_by_id⟩] }

/-- One iteration of the tool-result loop of `build_turns` (`hook.py` lines
314-317): store the fragment's content under `str(tool_use_id)`, skipping
falsy ids.  The non-dict case is unreachable because `iter_tool_results`
only keeps dicts. -/
def tool_result_step (acc : List (String × JsonVal)) (tr : JsonVal) :
    List (String × JsonVal) :=
  match tr with
  | .obj fs =>
    let tid := (List.lookup "tool_use_id" fs).getD .null
    if pyTruthy tid then dinsert acc (pyStr tid) ((List.lookup "content" fs).getD .null)
    else acc
  | _ => acc

/-- The tool-result loop of `build_turns` (`hook.py` lines 314-317). -/
def apply_tool_results (tools : List (String × JsonVal)) (content : JsonVal) :
    List (String × JsonVal) :=
  (iter_tool_results content).foldl tool_result_step tools

/-- Python `mid = get_message_id(msg) or the noid fallback`
(`hook.py` line 329). -/
def fallback_mid (mido : Option String) (order : List String) : String :=
  match mido with
  | some s => s
  | none => "noid:" ++ toString order.length

/-- One iteration of the message loop of `build_turns` (`hook.py` lines
311-333). -/
def bstep (st : BState) (msg : JsonVal) : Except Unit BState := do
  let role ← get_role msg
  let istr ← is_tool_result msg
  if istr then
    return { st with tool_results_by_id := apply_tool_results st.tool_results_by_id (get_content msg) }
  else if role = some "user" then
    let fl := flush_turn st
    return ⟨fl.turns, some msg, [], [], []⟩
  else if role = some "assistant" then
    match st.current_user with
    | none => return st
    | some _ => do
      let mido ← get_message_id msg
      let mid := fallback_mid mido st.assistant_order
      return { st with
        assistant_order :=
          if (st.assistant_latest.map Prod.fst).contains mid then st.assistant_order
          else st.assistant_order ++ [mid],
        assistant_latest := dinsert st.assistant_latest mid msg }
  else
    return st

/-- The empty accumulator state of `build_turns`. -/
def initB : BState := ⟨[], none, [], [], []⟩

/-- Source `hook.py` line 295, `build_turns`. -/
def build_turns (messages : List JsonVal) : Except Unit (List Turn) := do
  let st ← messages.foldlM bstep initB
  return (flush_turn st).turns

/-- A message the loop of `build_turns` can process without raising: any
dict (`get_role` succeeds exactly on dicts). -/
def IsDictMsg (m : JsonVal) : Prop := ∃ fs, m = JsonVal.obj fs

/-- A user message that is not a tool-result carrier: it opens a turn. -/
def IsUserOpen (m : JsonVal) : Prop :=
  get_role m = .ok (some "user") ∧ is_tool_result m = .ok false

/-- An assistant message. -/
def IsAssistantMsg (m : JsonVal) : Prop := get_role m = .ok (some "assistant")

/-- One user turn-segment of a transcript: its opening user message and the
messages that follow it up to (excluding) the next turn-opening user
message. -/
structure TurnBlock where
  user : JsonVal
  rest : List JsonVal

/-- Python `dict.get` on a value that may not be a dict (`AttributeError` when it
is not). -/
def dget (v : JsonVal) (k : String) : Except Unit JsonVal :=
  match v with
  | .obj fs => .ok ((List.lookup k fs).getD .null)
  | _ => .error ()

/-- Python `dict.get` with an explicit default for a missing key. -/
def dgetD (v : JsonVal) (k : String) (d : JsonVal) : Except Unit JsonVal :=
  match v with
  | .obj fs => .ok ((List.lookup k fs).getD d)
  | _ => .error ()

/-- Source `hook.py` line 127, `extract_session_and_transcript`.  The `or` chains
are evaluated lazily, as in Python, so a non-dict `session`/`transcript`
field only raises when the earlier alternatives are falsy.  `resolve` stands
for `Path(s).expanduser().resolve()`, `none` meaning it raised; a truthy
non-string transcript value also raises inside that `try`, yielding `none`. -/
def extract_session_and_transcript (resolve : String → Option String)
    (payload : JsonVal) : Except Unit (JsonVal × Option String) := do
  let v1 ← dget payload "sessionId"
  let sid ←
    if pyTruthy v1 then pure v1 else do
      let v2 ← dget payload "session_id"
      if pyTruthy v2 then pure v2 else do
        let sObj ← dgetD payload "session" (.obj [])
        let v3 ← dget sObj "id"
        if pyTruthy v3 then pure v3 else dget payload "conversation_id"
  let t1 ← dget payload "transcriptPath"
  let tv ←
    if pyTruthy t1 then pure t1 else do
      let t2 ← dget payload "transcript_path"
      if pyTruthy t2 then pure t2 else do
        let tObj ← dgetD payload "transcript" (.obj [])
        dget tObj "path"
  let tpath : Option String :=
    if pyTruthy tv then (match tv with | .str s => resolve s | _ => none) else none
  return (sid, tpath)

/-- The persisted state file: a map from session fingerprint to cursor
record, in insertion order. -/
abbrev GState : Type := List (String × SessionState)

/-- Source `hook.py` line 240, `load_session_state`: missing key yields the zero
cursor. -/
def load_session_state (g : GState) (key : String) : SessionState :=
  (List.lookup key g).getD ⟨0, [], 0⟩

/-- Source `hook.py` line 248, `write_session_state` (the `updated` timestamp is
not modelled). -/
def write_session_state (g : GState) (key : String) (ss : SessionState) : GState :=
  dinsert g key ss

/-- One invocation's environment: configuration, stdin payload (already
parsed by `read_hook_payload`, which yields `{}` on unreadable input),
filesystem and the external effects `main` consumes.  `provider_ok` is
whether `_create_provider` returns a provider rather than `None`;
`emit_fails` tells, per turn number, whether `provider.emit_turn` raises. -/
structure Env where
  enabled : Bool
  provider_name : String
  provider_ok : Bool
  payload : JsonVal
  resolve : String → Option String
  fs : String → Option (List Char)
  read_ok : Bool
  parse : List Char → Option JsonVal
  hashF : String → String
  state0 : GState
  emit_fails : Nat → Bool

/-- The observable outcome of one `main` invocation.  `exitCode` is `none`
when an exception escapes `main` (Python would print a traceback and exit
non-zero); `saved` is the state written by `save_state`, `none` when
`save_state` is never called; `emits` records each `emit_turn` call in
order as (turn number, raised?). -/
structure MainResult where
  exitCode : Option Nat
  saved : Option GState
  emits : List (Nat × Bool)
  providerConstructed : Bool
  flushCalled : Bool
  shutdownCalled : Bool

/-- Source `hook.py` line 396, `main`.  Guard order follows the source: feature
flag, provider name, provider construction, payload extraction (outside the
`try`, so an `AttributeError` there escapes), the session/transcript
presence check and the transcript existence check (both *before* the
`try`/`finally`, so they return without calling `provider.shutdown`), then
the locked read-assemble-dispatch-save critical section, whose `finally`
always calls `shutdown` and where an exception from `build_turns` is caught
after the dispatch loop never ran and the state was never saved. -/
def mainRun (env : Env) : MainResult :=
  if !env.enabled then ⟨some 0, none, [], false, false, false⟩
  else if env.provider_name = "" then ⟨some 0, none, [], false, false, false⟩
  else if !env.provider_ok then ⟨some 0, none, [], false, false, false⟩
  else
    match extract_session_and_transcript env.resolve env.payload with
    | .error _ => ⟨none, none, [], true, false, false⟩
    | .ok (sid, tpath) =>
      match tpath, pyTruthy sid with
      | some tp, true =>
        (match env.fs tp with
        | none => ⟨some 0, none, [], true, false, false⟩
        | some content =>
          let key := state_key env.hashF (pyStr sid) tp
          let ss0 := load_session_state env.state0 key
          let r := read_new_jsonl env.parse (some content) env.read_ok ss0
          let msgs := r.1
          let ss1 := r.2
          if msgs.isEmpty then
            ⟨some 0, some (write_session_state env.state0 key ss1), [], true, false, true⟩
          else
            match build_turns msgs with
            | .error _ => ⟨some 0, none, [], true, false, true⟩
            | .ok turns =>
              if turns.isEmpty then
                ⟨some 0, some (write_session_state env.state0 key ss1), [], true, false, true⟩
              else
                ⟨some 0,
                 some (write_session_state env.state0 key
                   { ss1 with turn_count := ss1.turn_count + turns.length }),
                 (List.range turns.length).map
                   (fun i => (ss1.turn_count + 1 + i, env.emit_fails (ss1.turn_count + 1 + i))),
                 true, true, true⟩)
      | _, _ => ⟨some 0, none, [], true, false, false⟩

/-- The `"text"` value of a fragment, with Python's `""` default for a
missing key (statement-side helper). -/
def fragTextVal (x : JsonVal) : JsonVal :=
  match x with
  | .obj fs => (List.lookup "text" fs).getD (.str "")
  | _ => .str ""

/-- The ordered string contents of the text-typed fragments of a fragment
list (statement-side helper, following the spec's wording). -/
def textFragments (xs : List JsonVal) : List String :=
  xs.filterMap fun x =>
    if typeIs x "text" then
      match fragTextVal x with
      | .str s => some s
      | _ => none
    else none

/-- Concrete user message used by witnesses. -/
def uMsgW : JsonVal := .obj [("type", .str "user"), ("content", .str "hi")]

/-- Concrete assistant message used by witnesses. -/
def aMsgW : JsonVal :=
  .obj [("type", .str "assistant"),
    ("message", .obj [("id", .str "m1"), ("role", .str "assistant")])]

/-- Concrete tool-result message used by witnesses. -/
def trMsgW : JsonVal :=
  .obj [("type", .str "user"),
    ("content", .arr [.obj [("type", .str "tool_result"),
      ("tool_use_id", .str "t1"), ("content", .str "out")]])]

/-- Concrete `json.loads` stand-in used by witnesses: the line `u` parses to
the user message, the line `a` to the assistant message. -/
def parseW : List Char → Option JsonVal := fun l =>
  if l = ['u'] then some uMsgW else if l = ['a'] then some aMsgW else none

/-- Concrete environment reaching the dispatch loop: a two-line transcript
holding one user and one assistant message. -/
def envC3 : Env :=
  { enabled := true, provider_name := "otlp", provider_ok := true,
    payload := .obj [("session_id", .str "s"), ("transcript_path", .str "/t")],
    resolve := fun s => some s,
    fs := fun pth => if pth = "/t" then some ("u\na\n".data) else none,
    read_ok := true, parse := parseW, hashF := fun s => s, state0 := [],
    emit_fails := fun _ => false }

/-- Concrete environment whose payload is the empty JSON object: the
session/transcript guard fires after the provider was constructed. -/
def envC4 : Env :=
  { enabled := true, provider_name := "otlp", provider_ok := true,
    payload := .obj [], resolve := fun s => some s, fs := fun _ => none,
    read_ok := true, parse := fun _ => none, hashF := fun s => s, state0 := [],
    emit_fails := fun _ => false }

/-- Concrete environment for the shutdown claim: provider constructed, then
the missing-session guard returns before the `try`/`finally`. -/
def envC5 : Env :=
  { enabled := true, provider_name := "langfuse", provider_ok := true,
    payload := .obj [("foo", .str "bar")], resolve := fun s => some s,
    fs := fun _ => none, read_ok := true, parse := fun _ => none,
    hashF := fun s => s, state0 := [], emit_fails := fun _ => false }

/-- The key a tool-result fragment stores under, when its `tool_use_id` is
truthy (statement-side helper). -/
def fragKey (tr : JsonVal) : Option String :=
  match tr with
  | .obj fs =>
    let tid := (List.lookup "tool_use_id" fs).getD .null
    if pyTruthy tid then some (pyStr tid) else none
  | _ => none

/-- The content a tool-result fragment stores (statement-side helper). -/
def fragContent (tr : JsonVal) : JsonVal :=
  match tr with
  | .obj fs => (List.lookup "content" fs).getD .null
  | _ => .null

/-- The value stored under key `k` by the *last* fragment of the list that
writes to `k`, if any (statement-side helper: last-write-wins). -/
def lastVal (k : String) : List JsonVal → Option JsonVal
  | [] => none
  | tr :: rest =>
    match lastVal k rest with
    | some v => some v
    | none =>
      match fragKey tr with
      | some fk => if fk = k then some (fragContent tr) else none
      | none => none

/-! ## Supporting lemmas -/

theorem splitNl_ne_nil : ∀ l : List Char, splitNl l ≠ []
  | [] => by simp [splitNl]
  | c :: rest => by
    by_cases h : c = '\n'
    · simp [splitNl, h]
    · simp only [splitNl, h, if_false]
      cases hs : splitNl rest with
      | nil => simp [consHead]
      | cons a ls => simp [consHead]

theorem splitNl_cons_ex (l : List Char) : ∃ x xs, splitNl l = x :: xs :=
  match h : splitNl l with
  | [] => absurd h (splitNl_ne_nil l)
  | x :: xs => ⟨x, xs, rfl⟩

theorem getLastD_irrel {α : Type} (l : List α) (h : l ≠ []) (a b : α) :
    l.getLastD a = l.getLastD b := by
  cases l with
  | nil => exact absurd rfl h
  | cons x t => rw [List.getLastD_cons, List.getLastD_cons]

theorem getLastD_append_ne {α : Type} (l₁ l₂ : List α) (h : l₂ ≠ []) (d : α) :
    (l₁ ++ l₂).getLastD d = l₂.getLastD d := by
  induction l₁ generalizing d with
  | nil => rfl
  | cons a t ih => rw [List.cons_append, List.getLastD_cons, ih a, getLastD_irrel l₂ h a d]

theorem splitNl_append : ∀ a b : List Char,
    splitNl (a ++ b) =
      (splitNl a).dropLast ++ mergeHead ((splitNl a).getLastD []) (splitNl b) := by
  intro a
  induction a with
  | nil =>
    intro b
    obtain ⟨m, ms, hm⟩ := splitNl_cons_ex b
    simp [splitNl, hm, mergeHead]
  | cons c a' ih =>
    intro b
    obtain ⟨l, ls, hl⟩ := splitNl_cons_ex a'
    by_cases hc : c = '\n'
    · subst hc
      have lhs : splitNl (('\n' :: a') ++ b) = [] :: splitNl (a' ++ b) := by
        simp [splitNl]
      have rhs1 : splitNl ('\n' :: a') = [] :: l :: ls := by simp [splitNl, hl]
      rw [lhs, ih b, rhs1, hl, List.dropLast_cons₂, List.cons_append]
      simp [List.getLastD_cons]
    · have lhs : splitNl ((c :: a') ++ b) = consHead c (splitNl (a' ++ b)) := by
        simp [splitNl, hc]
      have rhs1 : splitNl (c :: a') = consHead c (l :: ls) := by
        simp [splitNl, hc, hl]
      rw [lhs, ih b, hl, rhs1]
      cases ls with
      | nil =>
        obtain ⟨m, ms, hm⟩ := splitNl_cons_ex b
        simp [consHead, mergeHead, hm]
      | cons l2 ls2 =>
        simp only [consHead, List.dropLast_cons₂, List.cons_append, List.getLastD_cons]

theorem splitNl_no_nl : ∀ l : List Char, '\n' ∉ l → splitNl l = [l]
  | [], _ => rfl
  | c :: rest, h => by
    have hc : ¬ (c = '\n') := fun e => h (by rw [e]; exact List.mem_cons_self _ _)
    have hr : '\n' ∉ rest := fun hm => h (List.mem_cons_of_mem c hm)
    simp [splitNl, hc, splitNl_no_nl rest hr, consHead]

theorem no_nl_last : ∀ l : List Char, '\n' ∉ (splitNl l).getLastD []
  | [] => by simp [splitNl]
  | c :: rest => by
    have hIH := no_nl_last rest
    obtain ⟨l, ls, hl⟩ := splitNl_cons_ex rest
    rw [hl] at hIH
    by_cases hc : c = '\n'
    · simp only [splitNl, hc, if_true, hl, List.getLastD_cons] at *
      exact hIH
    · simp only [splitNl, hc, if_false, hl]
      cases ls with
      | nil =>
        simp only [consHead, List.getLastD_cons, List.getLastD] at *
        intro hmem
        rcases List.mem_cons.mp hmem with h1 | h2
        · exact hc h1.symm
        · exact hIH h2
      | cons l2 ls2 =>
        simp only [consHead, List.getLastD_cons] at *
        exact hIH

/-! ## Claims C6, C7, C10 -/

/-- C6: for every call to `read_new_jsonl` — the transcript missing, shrunk
below the stored offset, or unreadable included — the resulting offset is at
least the input offset, and a missing file yields an empty message list with
the state unchanged. -/
theorem read_new_jsonl_offset_monotone (parse : List Char → Option JsonVal)
    (file : Option (List Char)) (read_ok : Bool) (ss : SessionState) :
    ss.offset ≤ (read_new_jsonl parse file read_ok ss).2.offset ∧
    read_new_jsonl parse none read_ok ss = ([], ss) := by
  refine ⟨?_, rfl⟩
  match file with
  | none => exact Nat.le_refl _
  | some content =>
    unfold read_new_jsonl
    by_cases hr : read_ok
    · simp only [hr, Bool.not_true, if_false]
      by_cases hchunk : (content.drop ss.offset).isEmpty
      · simp [hchunk]
      · simp [hchunk]
    · simp at hr
      simp [hr]

/-- C7 counterexample: with the negative limit `-1`, Python's `s[:-1]` keeps
all but the last character, so `truncate("abc", -1)` has length `2 > -1`: the
claimed bound "length at most L for every integer limit L" fails. -/
theorem truncate_text_negative_limit_counterexample :
    ¬ (((truncate_text (fun _ => "") (some ("abc".data)) (-1)).1.length : Int) ≤ -1) := by
  decide

/-- C7 (amended to non-negative limits): for every text `T` and limit
`L ≥ 0`, the truncated text has length at most `L`, and whenever
`len T > L` the metadata carries `truncated = true` with the hash of the
full original text — a pure function of `T` and `L`, hence identical across
repeated calls. -/
theorem truncate_text_some (hash : List Char → String) (T : List Char) (L : Int) :
    truncate_text hash (some T) L =
      if (T.length : Int) ≤ L then (T, ⟨false, T.length, none, none⟩)
      else (pySliceTo T L,
        ⟨true, T.length, some (pySliceTo T L).length, some (hash T)⟩) := rfl

theorem truncate_text_length_hash (hash : List Char → String) (T : List Char)
    (L : Int) (hL : 0 ≤ L) :
    ((truncate_text hash (some T) L).1.length : Int) ≤ L ∧
    (L < (T.length : Int) →
      (truncate_text hash (some T) L).2.truncated = true ∧
      (truncate_text hash (some T) L).2.sha256 = some (hash T)) := by
  by_cases h : ((T.length : Int)) ≤ L
  · rw [truncate_text_some, if_pos h]
    exact ⟨h, fun hlt => absurd h (not_le.mpr hlt)⟩
  · have h0 : ¬ (L < 0) := not_lt.mpr hL
    rw [truncate_text_some, if_neg h]
    refine ⟨?_, fun _ => ⟨rfl, rfl⟩⟩
    show (((pySliceTo T L).length : Int)) ≤ L
    unfold pySliceTo
    rw [if_neg h0, List.length_take]
    have ht : (L.toNat : Int) = L := Int.toNat_of_nonneg hL
    omega

theorem truncate_text_length_hash_witness :
    (0 : Int) ≤ 2 ∧
      (((truncate_text (fun _ => "h") (some ("abcd".data)) 2).1.length : Int) ≤ 2 ∧
        ((2 : Int) < (("abcd".data).length : Int) →
          (truncate_text (fun _ => "h") (some ("abcd".data)) 2).2.truncated = true ∧
          (truncate_text (fun _ => "h") (some ("abcd".data)) 2).2.sha256 =
            some ((fun _ => "h") ("abcd".data)))) :=
  ⟨by decide, truncate_text_length_hash (fun _ => "h") ("abcd".data) 2 (by decide)⟩

/-- C10: the session fingerprint is not injective — the ids `"a::b"` with
path `"c"` and `"a"` with path `"b::c"` both hash the string `"a::b::c"`,
so these two distinct sessions share one state record. -/
theorem state_key_not_injective (hash : String → String) :
    state_key hash "a::b" "c" = state_key hash "a" "b::c" ∧
    ("a::b", "c") ≠ (("a", "b::c") : String × String) := by
  refine ⟨?_, by decide⟩
  unfold state_key
  exact congrArg hash (by decide)

/-- Unfolding `read_new_jsonl` on an existing, readable, non-empty new
chunk. -/
theorem read_new_jsonl_eq (parse : List Char → Option JsonVal)
    (content : List Char) (ss : SessionState)
    (hchunk : (content.drop ss.offset).isEmpty = false) :
    read_new_jsonl parse (some content) true ss =
      ((splitNl (ss.buffer ++ content.drop ss.offset)).dropLast.filterMap
         (parse_stripped_line parse),
       ⟨max ss.offset content.length,
        (splitNl (ss.buffer ++ content.drop ss.offset)).getLastD [],
        ss.turn_count⟩) := by
  unfold read_new_jsonl
  simp [hchunk]

/-- Unfolding `read_new_jsonl` when there are no new bytes past the
offset. -/
theorem read_new_jsonl_eq_empty (parse : List Char → Option JsonVal)
    (content : List Char) (ss : SessionState)
    (hchunk : (content.drop ss.offset).isEmpty = true) :
    read_new_jsonl parse (some content) true ss = ([], ss) := by
  unfold read_new_jsonl
  simp [hchunk]

/-- C2: resumable reading.  Reading a prefix `p` from the zero cursor and
then reading the grown file `p ++ q` from the resulting (offset, buffer)
state yields, across the two calls, exactly the parsed lines of a single
read of `p ++ q` — no complete newline-terminated line is dropped or
duplicated — and the final state (offset and carried unterminated fragment)
is the same as after the single read. -/
theorem read_new_jsonl_resumable (parse : List Char → Option JsonVal)
    (p q : List Char) (tc : Nat) :
    (read_new_jsonl parse (some p) true ⟨0, [], tc⟩).1 ++
      (read_new_jsonl parse (some (p ++ q)) true
        (read_new_jsonl parse (some p) true ⟨0, [], tc⟩).2).1 =
      (read_new_jsonl parse (some (p ++ q)) true ⟨0, [], tc⟩).1 ∧
    (read_new_jsonl parse (some (p ++ q)) true
        (read_new_jsonl parse (some p) true ⟨0, [], tc⟩).2).2 =
      (read_new_jsonl parse (some (p ++ q)) true ⟨0, [], tc⟩).2 := by
  rcases eq_or_ne p [] with hp | hp
  · subst hp
    have hA : read_new_jsonl parse (some ([] : List Char)) true ⟨0, [], tc⟩ =
        ([], ⟨0, [], tc⟩) := rfl
    rw [hA]
    simp
  · have hpe : (p.drop (0 : Nat)).isEmpty = false := by
      rw [List.drop_zero]
      cases p with
      | nil => exact absurd rfl hp
      | cons c cs => rfl
    have hA := read_new_jsonl_eq parse p ⟨0, [], tc⟩ hpe
    simp only [List.drop_zero, List.nil_append, Nat.zero_max] at hA
    rcases eq_or_ne q [] with hq | hq
    · subst hq
      rw [List.append_nil]
      rw [hA]
      have hB : read_new_jsonl parse (some p) true
          ⟨p.length, (splitNl p).getLastD [], tc⟩ = ([], ⟨p.length, (splitNl p).getLastD [], tc⟩) := by
        apply read_new_jsonl_eq_empty
        simp [List.drop_length]
      rw [hB]
      simp
    · have hqe : ((p ++ q).drop (0 : Nat)).isEmpty = false := by
        rw [List.drop_zero]
        cases p with
        | nil => exact absurd rfl hp
        | cons c cs => rfl
      have hsingle := read_new_jsonl_eq parse (p ++ q) ⟨0, [], tc⟩ hqe
      simp only [List.drop_zero, List.nil_append, Nat.zero_max] at hsingle
      have hdrop : (p ++ q).drop p.length = q := List.drop_left p q
      have hqne : q.isEmpty = false := by
        cases q with
        | nil => exact absurd rfl hq
        | cons c cs => rfl
      have hB := read_new_jsonl_eq parse (p ++ q) ⟨p.length, (splitNl p).getLastD [], tc⟩
        (by rw [hdrop]; exact hqne)
      simp only [hdrop] at hB
      have hoff : max p.length (p ++ q).length = (p ++ q).length := by
        rw [List.length_append]
        omega
      rw [hoff] at hB
      have key : splitNl (p ++ q) =
          (splitNl p).dropLast ++ splitNl ((splitNl p).getLastD [] ++ q) := by
        rw [splitNl_append p q, splitNl_append ((splitNl p).getLastD []) q,
          splitNl_no_nl _ (no_nl_last p)]
        simp [mergeHead]
      have hBne : splitNl ((splitNl p).getLastD [] ++ q) ≠ [] := splitNl_ne_nil _
      rw [hA, hB, hsingle]
      constructor
      · simp only []
        rw [key, List.dropLast_append_of_ne_nil _ hBne, List.filterMap_append]
      · simp only []
        rw [key, getLastD_append_ne _ _ hBne]

/-- C8 counterexample: a fragment list containing an *empty* text fragment.
The code's `if p` filter drops it before joining, so the result is
`"a\nb"`, not the claimed concatenation of all text fragments with newline
separators, which would be `"a\n\nb"`. -/
theorem extract_text_empty_fragment_counterexample :
    extract_text (.arr [.obj [("type", .str "text"), ("text", .str "a")],
        .obj [("type", .str "text"), ("text", .str "")],
        .obj [("type", .str "text"), ("text", .str "b")]]) = .ok "a\nb" ∧
      "a\nb" ≠ String.intercalate "\n" ["a", "", "b"] :=
  ⟨rfl, by decide⟩

/-- Parts collected by `extract_text` over well-shaped typed fragments are
exactly the text-fragment strings. -/
theorem filterMap_extract_part (xs : List JsonVal)
    (hx : ∀ x ∈ xs, (∃ fs, x = JsonVal.obj fs) ∧
      (typeIs x "text" = true → ∃ s, fragTextVal x = .str s)) :
    xs.filterMap extract_part = (textFragments xs).map JsonVal.str := by
  induction xs with
  | nil => rfl
  | cons x t ih =>
    obtain ⟨⟨fs, hfs⟩, htext⟩ := hx x (List.mem_cons_self _ _)
    have ih' := ih (fun y hy => hx y (List.mem_cons_of_mem x hy))
    subst hfs
    by_cases ht : typeIs (.obj fs) "text" = true
    · obtain ⟨s, hs⟩ := htext ht
      have hpart : extract_part (JsonVal.obj fs) = some (JsonVal.str s) := by
        show (if typeIs (JsonVal.obj fs) "text" = true then
            some ((List.lookup "text" fs).getD (JsonVal.str "")) else none) =
          some (JsonVal.str s)
        rw [if_pos ht]
        exact congrArg some hs
      have hfrag : textFragments (JsonVal.obj fs :: t) = s :: textFragments t := by
        unfold textFragments
        rw [List.filterMap_cons]
        simp only [ht, if_true, hs]
      simp only [List.filterMap_cons, hpart, hfrag, ih', List.map_cons]
    · have htf : typeIs (JsonVal.obj fs) "text" = false := by
        cases h : typeIs (JsonVal.obj fs) "text"
        · rfl
        · exact absurd h ht
      have hpart : extract_part (JsonVal.obj fs) = none := by
        show (if typeIs (JsonVal.obj fs) "text" = true then
            some ((List.lookup "text" fs).getD (JsonVal.str "")) else none) = none
        rw [if_neg ht]
      have hfrag : textFragments (JsonVal.obj fs :: t) = textFragments t := by
        unfold textFragments
        rw [List.filterMap_cons]
        simp only [htf, Bool.false_eq_true, if_false]
      simp only [List.filterMap_cons, hpart, hfrag, ih']

/-- Unfolding `extract_text` on a fragment list. -/
theorem extract_text_arr (xs : List JsonVal) :
    extract_text (.arr xs) =
      (if ((xs.filterMap extract_part).filter pyTruthy).all
          (fun p => match p with | .str _ => true | _ => false) then
        Except.ok (String.intercalate "\n"
          (((xs.filterMap extract_part).filter pyTruthy).filterMap fun p =>
            match p with | .str s => some s | _ => none))
      else .error ()) := rfl

/-- After the truthiness filter, a list of string parts is all-strings and
unwraps to the non-empty original strings. -/
theorem map_str_pipeline (l : List String) :
    ((List.map JsonVal.str l).filter pyTruthy).all
      (fun p => match p with | .str _ => true | _ => false) = true ∧
    ((List.map JsonVal.str l).filter pyTruthy).filterMap
      (fun p => match p with | .str s => some s | _ => none) =
      l.filter (fun s => s != "") := by
  induction l with
  | nil => exact ⟨rfl, rfl⟩
  | cons s t ih =>
    by_cases hs : s = ""
    · subst hs
      have hf : pyTruthy (JsonVal.str "") = false := rfl
      have hne : ("" != "") = false := rfl
      simp only [List.map_cons, List.filter_cons, hf, hne, Bool.false_eq_true, if_false]
      exact ih
    · have hf : pyTruthy (JsonVal.str s) = true := by
        show (s != "") = true
        simpa using hs
      have hne : (s != "") = true := by simpa using hs
      simp only [List.map_cons, List.filter_cons, hf, hne, if_true, List.all_cons,
        List.filterMap_cons, Bool.and_eq_true]
      exact ⟨⟨trivial, ih.1⟩, congrArg (List.cons s) ih.2⟩

/-- C8 (amended): `extract_text` returns a plain string content itself; on
an ordered sequence of typed (dict) fragments whose present text values are
strings it returns the *non-empty* text fragments concatenated in order
with newline separators, ignoring non-text fragments and empty or missing
text values; and it returns `""` for null and every other shape. -/
theorem extract_text_shapes (xs : List JsonVal)
    (hx : ∀ x ∈ xs, (∃ fs, x = JsonVal.obj fs) ∧
      (typeIs x "text" = true → ∃ s, fragTextVal x = .str s)) :
    extract_text (.arr xs) =
      .ok (String.intercalate "\n" ((textFragments xs).filter (fun s => s != ""))) ∧
    (∀ s, extract_text (.str s) = .ok s) ∧
    extract_text .null = .ok "" ∧
    (∀ n, extract_text (.num n) = .ok "") ∧
    (∀ b, extract_text (.bool b) = .ok "") ∧
    (∀ fs, extract_text (.obj fs) = .ok "") := by
  refine ⟨?_, fun s => rfl, rfl, fun n => rfl, fun b => rfl, fun fs => rfl⟩
  rw [extract_text_arr, filterMap_extract_part xs hx,
    if_pos (map_str_pipeline (textFragments xs)).1,
    (map_str_pipeline (textFragments xs)).2]

theorem extract_text_shapes_witness :
    (∀ x ∈ [JsonVal.obj [("type", JsonVal.str "text"), ("text", JsonVal.str "hi")]],
      (∃ fs, x = JsonVal.obj fs) ∧
      (typeIs x "text" = true → ∃ s, fragTextVal x = JsonVal.str s)) ∧
    (extract_text
        (.arr [JsonVal.obj [("type", JsonVal.str "text"), ("text", JsonVal.str "hi")]]) =
      .ok (String.intercalate "\n"
        ((textFragments
          [JsonVal.obj [("type", JsonVal.str "text"), ("text", JsonVal.str "hi")]]).filter
            (fun s => s != ""))) ∧
      (∀ s, extract_text (.str s) = .ok s) ∧
      extract_text .null = .ok "" ∧
      (∀ n, extract_text (.num n) = .ok "") ∧
      (∀ b, extract_text (.bool b) = .ok "") ∧
      (∀ fs, extract_text (.obj fs) = .ok "")) := by
  have hx : ∀ x ∈ [JsonVal.obj [("type", JsonVal.str "text"), ("text", JsonVal.str "hi")]],
      (∃ fs, x = JsonVal.obj fs) ∧
      (typeIs x "text" = true → ∃ s, fragTextVal x = JsonVal.str s) := by
    intro x hxm
    rw [List.mem_singleton.mp hxm]
    exact ⟨⟨_, rfl⟩, fun _ => ⟨"hi", rfl⟩⟩
  exact ⟨hx, extract_text_shapes _ hx⟩

/-- Full case analysis of one `build_turns` loop iteration on a dict
message. -/
theorem bstep_obj (st : BState) (fs : List (String × JsonVal)) :
    bstep st (.obj fs) =
      (if tool_result_flag fs then
        Except.ok ⟨st.turns, st.current_user, st.assistant_order, st.assistant_latest,
          apply_tool_results st.tool_results_by_id (get_content (.obj fs))⟩
      else if roleOf fs = some "user" then
        Except.ok ⟨(flush_turn st).turns, some (.obj fs), [], [], []⟩
      else if roleOf fs = some "assistant" then
        (match st.current_user with
         | none => Except.ok st
         | some _ =>
           Except.ok ⟨st.turns, st.current_user,
             (if (st.assistant_latest.map Prod.fst).contains
                  (fallback_mid (message_id_of fs) st.assistant_order) then
                st.assistant_order
              else st.assistant_order ++ [fallback_mid (message_id_of fs) st.assistant_order]),
             dinsert st.assistant_latest (fallback_mid (message_id_of fs) st.assistant_order)
               (.obj fs),
             st.tool_results_by_id⟩)
      else Except.ok st) := rfl

theorem tool_result_flag_role (fs : List (String × JsonVal))
    (h : tool_result_flag fs = true) : roleOf fs = some "user" := by
  by_cases hr : roleOf fs = some "user"
  · exact hr
  · unfold tool_result_flag at h
    rw [if_pos hr] at h
    exact absurd h (by simp)

theorem IsUserOpen_iff (m : JsonVal) :
    IsUserOpen m ↔ ∃ fs, m = .obj fs ∧ roleOf fs = some "user" ∧
      tool_result_flag fs = false := by
  constructor
  · rintro ⟨h1, h2⟩
    cases m with
    | obj fs =>
      refine ⟨fs, rfl, ?_, ?_⟩
      · exact Except.ok.inj h1
      · exact Except.ok.inj h2
    | null => exact Except.noConfusion h1
    | bool b => exact Except.noConfusion h1
    | num n => exact Except.noConfusion h1
    | str s => exact Except.noConfusion h1
    | arr xs => exact Except.noConfusion h1
  · rintro ⟨fs, rfl, h1, h2⟩
    exact ⟨congrArg Except.ok h1, congrArg Except.ok h2⟩

theorem IsAssistantMsg_iff (m : JsonVal) :
    IsAssistantMsg m ↔ ∃ fs, m = .obj fs ∧ roleOf fs = some "assistant" := by
  constructor
  · intro h1
    cases m with
    | obj fs => exact ⟨fs, rfl, Except.ok.inj h1⟩
    | null => exact Except.noConfusion h1
    | bool b => exact Except.noConfusion h1
    | num n => exact Except.noConfusion h1
    | str s => exact Except.noConfusion h1
    | arr xs => exact Except.noConfusion h1
  · rintro ⟨fs, rfl, h1⟩
    exact congrArg Except.ok h1

theorem dinsert_ne_nil {β : Type} (l : List (String × β)) (k : String) (v : β) :
    dinsert l k v ≠ [] := by
  unfold dinsert
  split
  · rename_i hc
    intro hmap
    rw [List.map_eq_nil_iff] at hmap
    subst hmap
    simp at hc
  · simp

theorem bstep_tool_eq (st : BState) (fs : List (String × JsonVal))
    (h : tool_result_flag fs = true) :
    bstep st (.obj fs) = .ok ⟨st.turns, st.current_user, st.assistant_order,
      st.assistant_latest,
      apply_tool_results st.tool_results_by_id (get_content (.obj fs))⟩ := by
  rw [bstep_obj, if_pos h]

theorem bstep_user_eq (st : BState) (fs : List (String × JsonVal))
    (h : tool_result_flag fs = false) (hr : roleOf fs = some "user") :
    bstep st (.obj fs) = .ok ⟨(flush_turn st).turns, some (.obj fs), [], [], []⟩ := by
  rw [bstep_obj, if_neg (by simp [h]), if_pos hr]

theorem bstep_assistant_none_eq (st : BState) (fs : List (String × JsonVal))
    (h : tool_result_flag fs = false) (hr : roleOf fs = some "assistant")
    (hcu : st.current_user = none) :
    bstep st (.obj fs) = .ok st := by
  rw [bstep_obj, if_neg (by simp [h]), if_neg (by simp [hr]), if_pos hr, hcu]

theorem bstep_assistant_some_eq (st : BState) (fs : List (String × JsonVal))
    (u : JsonVal) (h : tool_result_flag fs = false)
    (hr : roleOf fs = some "assistant") (hcu : st.current_user = some u) :
    bstep st (.obj fs) = .ok ⟨st.turns, st.current_user,
      (if (st.assistant_latest.map Prod.fst).contains
           (fallback_mid (message_id_of fs) st.assistant_order) then
         st.assistant_order
       else st.assistant_order ++ [fallback_mid (message_id_of fs) st.assistant_order]),
      dinsert st.assistant_latest (fallback_mid (message_id_of fs) st.assistant_order)
        (.obj fs),
      st.tool_results_by_id⟩ := by
  rw [bstep_obj, if_neg (by simp [h]), if_neg (by simp [hr]), if_pos hr, hcu]

theorem bstep_other_eq (st : BState) (fs : List (String × JsonVal))
    (h : tool_result_flag fs = false) (hu : roleOf fs ≠ some "user")
    (ha : roleOf fs ≠ some "assistant") :
    bstep st (.obj fs) = .ok st := by
  rw [bstep_obj, if_neg (by simp [h]), if_neg hu, if_neg ha]

theorem flush_turn_none (st : BState) (h : st.current_user = none) :
    flush_turn st = st := by
  unfold flush_turn
  rw [h]

theorem flush_turn_some_empty (st : BState) (u : JsonVal)
    (hcu : st.current_user = some u) (hl : st.assistant_latest = []) :
    flush_turn st = st := by
  unfold flush_turn
  rw [hcu, hl]
  rfl

theorem flush_turn_some_ne (st : BState) (u : JsonVal)
    (hcu : st.current_user = some u) (hl : st.assistant_latest ≠ []) :
    flush_turn st = ⟨st.turns ++
      [⟨u, st.assistant_order.filterMap (fun mid => List.lookup mid st.assistant_latest),
        st.tool_results_by_id⟩],
      st.current_user, st.assistant_order, st.assistant_latest,
      st.tool_results_by_id⟩ := by
  have he : st.assistant_latest.isEmpty = false := by
    cases hc : st.assistant_latest with
    | nil => exact absurd hc hl
    | cons a t => rfl
  unfold flush_turn
  rw [hcu, he]
  rfl

/-- Folding the loop over messages that are dicts and never open a turn
(tool results, assistants, role-less records): the accumulated turns and
the open user message are unchanged; assistants only grow the reply map. -/
theorem fold_non_user (msgs : List JsonVal) :
    ∀ st : BState,
    (∀ m ∈ msgs, IsDictMsg m ∧ ¬ IsUserOpen m) →
    ∃ st', List.foldlM bstep st msgs = .ok st' ∧
      st'.turns = st.turns ∧
      st'.current_user = st.current_user ∧
      (st.current_user = none →
        st'.assistant_order = st.assistant_order ∧
        st'.assistant_latest = st.assistant_latest) ∧
      (st.assistant_latest ≠ [] → st'.assistant_latest ≠ []) ∧
      (st.current_user ≠ none → (∃ m ∈ msgs, IsAssistantMsg m) →
        st'.assistant_latest ≠ []) ∧
      ((∀ m ∈ msgs, ¬ IsAssistantMsg m) →
        st'.assistant_order = st.assistant_order ∧
        st'.assistant_latest = st.assistant_latest) := by
  induction msgs with
  | nil =>
    intro st _
    refine ⟨st, rfl, rfl, rfl, fun _ => ⟨rfl, rfl⟩, fun h => h, ?_, fun _ => ⟨rfl, rfl⟩⟩
    rintro _ ⟨m, hm, _⟩
    exact absurd hm (List.not_mem_nil m)
  | cons m t ih =>
    intro st hall
    obtain ⟨⟨fs, rfl⟩, hnuo⟩ := hall m (List.mem_cons_self _ _)
    have htall : ∀ m ∈ t, IsDictMsg m ∧ ¬ IsUserOpen m :=
      fun m hm => hall m (List.mem_cons_of_mem _ hm)
    rw [List.foldlM_cons]
    by_cases htf : tool_result_flag fs = true
    · rw [bstep_tool_eq st fs htf]
      obtain ⟨st', hfold, h1, h2, h3, h4, h5, h6⟩ := ih _ htall
      have hnotasst : ¬ IsAssistantMsg (JsonVal.obj fs) := by
        rw [IsAssistantMsg_iff]
        rintro ⟨fs', heq, hrole⟩
        cases heq
        rw [tool_result_flag_role fs htf] at hrole
        exact absurd hrole (by decide)
      refine ⟨st', hfold, h1, h2, h3, h4, ?_, ?_⟩
      · rintro hcu ⟨m', hm', hasst⟩
        rcases List.mem_cons.mp hm' with rfl | hm't
        · exact absurd hasst hnotasst
        · exact h5 hcu ⟨m', hm't, hasst⟩
      · intro hnone
        exact h6 (fun m' hm' => hnone m' (List.mem_cons_of_mem _ hm'))
    · have htf' : tool_result_flag fs = false := by
        cases hx : tool_result_flag fs
        · rfl
        · exact absurd hx htf
      by_cases hru : roleOf fs = some "user"
      · exact absurd ((IsUserOpen_iff _).mpr ⟨fs, rfl, hru, htf'⟩) hnuo
      · by_cases hra : roleOf fs = some "assistant"
        · by_cases hcu : st.current_user = none
          · rw [bstep_assistant_none_eq st fs htf' hra hcu]
            obtain ⟨st', hfold, h1, h2, h3, h4, h5, h6⟩ := ih _ htall
            refine ⟨st', hfold, h1, h2, h3, h4, ?_, ?_⟩
            · intro hcu'
              exact absurd hcu hcu'
            · intro hnone
              exact absurd ((IsAssistantMsg_iff _).mpr ⟨fs, rfl, hra⟩)
                (hnone _ (List.mem_cons_self _ _))
          · obtain ⟨u, hu⟩ : ∃ u, st.current_user = some u := by
              cases hx : st.current_user with
              | none => exact absurd hx hcu
              | some u => exact ⟨u, rfl⟩
            rw [bstep_assistant_some_eq st fs u htf' hra hu]
            obtain ⟨st', hfold, h1, h2, h3, h4, h5, h6⟩ := ih _ htall
            have hlat : (dinsert st.assistant_latest
                (fallback_mid (message_id_of fs) st.assistant_order)
                (JsonVal.obj fs)) ≠ [] := dinsert_ne_nil _ _ _
            refine ⟨st', hfold, h1, h2, ?_, ?_, ?_, ?_⟩
            · intro hn
              exact absurd hn hcu
            · intro _
              exact h4 hlat
            · intro _ _
              exact h4 hlat
            · intro hnone
              exact absurd ((IsAssistantMsg_iff _).mpr ⟨fs, rfl, hra⟩)
                (hnone _ (List.mem_cons_self _ _))
        · rw [bstep_other_eq st fs htf' hru hra]
          obtain ⟨st', hfold, h1, h2, h3, h4, h5, h6⟩ := ih _ htall
          have hnotasst : ¬ IsAssistantMsg (JsonVal.obj fs) := by
            rw [IsAssistantMsg_iff]
            rintro ⟨fs', heq, hrole⟩
            cases heq
            exact hra hrole
          refine ⟨st', hfold, h1, h2, h3, h4, ?_, ?_⟩
          · rintro hcu ⟨m', hm', hasst⟩
            rcases List.mem_cons.mp hm' with rfl | hm't
            · exact absurd hasst hnotasst
            · exact h5 hcu ⟨m', hm't, hasst⟩
          · intro hnone
            exact h6 (fun m' hm' => hnone m' (List.mem_cons_of_mem _ hm'))

theorem ok_bind {α β : Type} (a : α) (f : α → Except Unit β) :
    (Except.ok a >>= f) = f a := rfl

/-- Folding the loop over a sequence of turn blocks — each a turn-opening
user message followed by non-opening messages containing at least one
assistant reply — appends exactly one flushed turn per block, carrying the
block's user message, in order. -/
theorem fold_blocks (blocks : List TurnBlock) :
    ∀ st : BState,
    (∀ b ∈ blocks, IsUserOpen b.user ∧
      (∀ m ∈ b.rest, IsDictMsg m ∧ ¬ IsUserOpen m) ∧
      (∃ m ∈ b.rest, IsAssistantMsg m)) →
    ∃ st', List.foldlM bstep st (blocks.flatMap fun b => b.user :: b.rest) = .ok st' ∧
      (flush_turn st').turns.map Turn.user_msg =
        (flush_turn st).turns.map Turn.user_msg ++ blocks.map TurnBlock.user := by
  induction blocks with
  | nil =>
    intro st _
    exact ⟨st, rfl, by simp⟩
  | cons b bs ih =>
    intro st hall
    obtain ⟨hopen, hrest, hasst⟩ := hall b (List.mem_cons_self _ _)
    obtain ⟨fs, hfs, hru, htf⟩ := (IsUserOpen_iff _).mp hopen
    have hsplit : ((b :: bs).flatMap fun b => b.user :: b.rest) =
        b.user :: (b.rest ++ (bs.flatMap fun b => b.user :: b.rest)) := by
      rw [List.flatMap_cons]
      rfl
    rw [hsplit, List.foldlM_cons, hfs, bstep_user_eq st fs htf hru, ok_bind,
      List.foldlM_append]
    obtain ⟨st2, hfold2, h1, h2, h3, h4, h5, h6⟩ :=
      fold_non_user b.rest ⟨(flush_turn st).turns, some (.obj fs), [], [], []⟩ hrest
    rw [hfold2, ok_bind]
    obtain ⟨st', hfold3, hmap⟩ := ih st2 (fun b' hb' => hall b' (List.mem_cons_of_mem _ hb'))
    refine ⟨st', hfold3, ?_⟩
    rw [hmap]
    have hcu2 : st2.current_user = some (JsonVal.obj fs) := h2
    have hlat2 : st2.assistant_latest ≠ [] := h5 (by simp) hasst
    rw [flush_turn_some_ne st2 (JsonVal.obj fs) hcu2 hlat2]
    simp only [List.map_append, List.map_cons, List.map_nil]
    have h1' : st2.turns = (flush_turn st).turns := h1
    rw [h1', hfs]
    simp

/-- C1: on a transcript consisting of a non-opening prefix, then N
turn-blocks (each a non-tool-result user message followed, before the next
such user message, by at least one assistant message), then an optional
trailing user message with no assistant reply, `build_turns` returns
exactly N turns whose user messages are the block openers in order; the
trailing user message yields no turn. -/
theorem build_turns_user_blocks (pre : List JsonVal) (blocks : List TurnBlock)
    (tail : List JsonVal)
    (hpre : ∀ m ∈ pre, IsDictMsg m ∧ ¬ IsUserOpen m)
    (hblocks : ∀ b ∈ blocks, IsUserOpen b.user ∧
      (∀ m ∈ b.rest, IsDictMsg m ∧ ¬ IsUserOpen m) ∧
      (∃ m ∈ b.rest, IsAssistantMsg m))
    (htail : tail = [] ∨ ∃ u rest, tail = u :: rest ∧ IsUserOpen u ∧
      (∀ m ∈ rest, (IsDictMsg m ∧ ¬ IsUserOpen m) ∧ ¬ IsAssistantMsg m)) :
    ∃ turns,
      build_turns (pre ++ ((blocks.flatMap fun b => b.user :: b.rest) ++ tail)) =
        .ok turns ∧
      turns.map Turn.user_msg = blocks.map TurnBlock.user := by
  unfold build_turns
  obtain ⟨st0, hf0, g1, g2, g3, _, _, _⟩ := fold_non_user pre initB hpre
  rw [List.foldlM_append, hf0, ok_bind, List.foldlM_append]
  obtain ⟨st1, hf1, hmap1⟩ := fold_blocks blocks st0 hblocks
  rw [hf1, ok_bind]
  have hcu0 : st0.current_user = none := g2
  have hmap1' : (flush_turn st1).turns.map Turn.user_msg = blocks.map TurnBlock.user := by
    rw [hmap1, flush_turn_none st0 hcu0]
    have g1' : st0.turns = [] := g1
    rw [g1']
    simp
  rcases htail with rfl | ⟨u, rest, rfl, hopen, hrest⟩
  · rw [List.foldlM_nil, pure_bind]
    exact ⟨_, rfl, hmap1'⟩
  · obtain ⟨fs, hfs, hru, htf⟩ := (IsUserOpen_iff _).mp hopen
    rw [List.foldlM_cons, hfs, bstep_user_eq st1 fs htf hru, ok_bind]
    obtain ⟨st3, hf3, k1, k2, k3, k4, k5, k6⟩ :=
      fold_non_user rest ⟨(flush_turn st1).turns, some (.obj fs), [], [], []⟩
        (fun m hm => (hrest m hm).1)
    rw [hf3, ok_bind]
    have hcu3 : st3.current_user = some (JsonVal.obj fs) := k2
    have hlat3 : st3.assistant_latest = [] := (k6 (fun m hm => (hrest m hm).2)).2
    rw [flush_turn_some_empty st3 _ hcu3 hlat3]
    refine ⟨st3.turns, rfl, ?_⟩
    have k1' : st3.turns = (flush_turn st1).turns := k1
    rw [k1']
    exact hmap1'

theorem build_turns_user_blocks_witness :
    ∃ turns, build_turns [uMsgW, aMsgW, uMsgW] = .ok turns ∧
      turns.map Turn.user_msg = [uMsgW] := by
  have h := build_turns_user_blocks [] [⟨uMsgW, [aMsgW]⟩] [uMsgW]
    (fun m hm => absurd hm (List.not_mem_nil m))
    (by
      intro b hb
      rw [List.mem_singleton.mp hb]
      refine ⟨⟨rfl, rfl⟩, ?_, ⟨aMsgW, List.mem_singleton.mpr rfl, rfl⟩⟩
      intro m hm
      rw [List.mem_singleton.mp hm]
      exact ⟨⟨_, rfl⟩, fun hc => absurd hc.1 (by decide)⟩)
    (Or.inr ⟨uMsgW, [], rfl, ⟨rfl, rfl⟩, fun m hm => absurd hm (List.not_mem_nil m)⟩)
  simpa using h

/-! ## Association-list (Python dict) lemmas -/

theorem keys_dinsert {β : Type} (l : List (String × β)) (k : String) (v : β) :
    (dinsert l k v).map Prod.fst =
      if (l.map Prod.fst).contains k then l.map Prod.fst
      else l.map Prod.fst ++ [k] := by
  unfold dinsert
  split
  · rw [List.map_map]
    apply List.map_congr_left
    intro p _
    by_cases hp : p.1 = k
    · simp [hp]
    · simp [hp]
  · rw [List.map_append]
    rfl

theorem lookup_map_set {β : Type} (k : String) (v : β) :
    ∀ (l : List (String × β)) (k' : String),
    List.lookup k' (l.map (fun p => if p.1 = k then (k, v) else p)) =
      if k' = k then (if (l.map Prod.fst).contains k then some v else none)
      else List.lookup k' l := by
  intro l
  induction l with
  | nil =>
    intro k'
    by_cases hk : k' = k <;> simp [List.lookup, hk]
  | cons p t ih =>
    intro k'
    obtain ⟨a, b⟩ := p
    rw [List.map_cons]
    by_cases ha : a = k
    · rw [show (if ((a, b) : String × β).1 = k then (k, v) else (a, b)) = (k, v) from
        if_pos ha]
      by_cases hk : k' = k
      · have h1 : (k' == k) = true := by simpa using hk
        have h2 : (k == a) = true := by simpa using ha.symm
        simp [List.lookup, h1, hk, List.contains_cons, h2]
      · have h1 : (k' == k) = false := by simpa using hk
        have h2 : (k' == a) = false := by
          simpa using (fun he => hk (he.trans ha))
        simp [List.lookup, h1, h2, ih, hk]
    · rw [show (if ((a, b) : String × β).1 = k then (k, v) else (a, b)) = (a, b) from
        if_neg ha]
      by_cases hk2 : k' = a
      · have h1 : (k' == a) = true := by simpa using hk2
        have hkk : ¬ k' = k := fun he => ha ((hk2.symm.trans he) ▸ rfl)
        simp [List.lookup, h1, hkk]
      · have h1 : (k' == a) = false := by simpa using hk2
        simp only [List.lookup, h1]
        rw [ih k']
        by_cases hkk : k' = k
        · have h2 : ¬ k = a := fun he => ha he.symm
          have hcc : ((a :: List.map Prod.fst t).contains k) =
              ((List.map Prod.fst t).contains k) := by
            simp [List.contains_cons, h2]
          rw [List.map_cons]
          rw [hcc]
        · simp [hkk]

theorem lookup_append_last {β : Type} (k : String) (v : β) :
    ∀ (l : List (String × β)) (k' : String), k' ∉ l.map Prod.fst ∨ k' ≠ k →
    List.lookup k' (l ++ [(k, v)]) =
      if k' = k then (if k' ∈ l.map Prod.fst then List.lookup k' l else some v)
      else List.lookup k' l := by
  intro l
  induction l with
  | nil =>
    intro k' _
    by_cases hk : k' = k
    · simp [List.lookup, hk]
    · have hbe : (k' == k) = false := by simpa using hk
      simp [List.lookup, hbe, hk]
  | cons p t ih =>
    intro k' hside
    obtain ⟨a, b⟩ := p
    by_cases hk2 : k' = a
    · subst hk2
      by_cases hk : k' = k <;> simp [List.lookup, hk]
    · have hka : (k' == a) = false := by simpa using hk2
      have hside' : k' ∉ t.map Prod.fst ∨ k' ≠ k := by
        rcases hside with hs | hs
        · exact Or.inl (fun hm => hs (List.mem_cons_of_mem _ hm))
        · exact Or.inr hs
      simp only [List.cons_append, List.lookup, hka, List.map_cons, List.append_eq]
      rw [ih k' hside']
      by_cases hk : k' = k
      · have hmem : (k' ∈ a :: t.map Prod.fst) = (k' ∈ t.map Prod.fst) := by
          simp [List.mem_cons, hk2]
        simp only [hmem]
      · simp [hk]

theorem lookup_dinsert {β : Type} (l : List (String × β)) (k : String) (v : β)
    (k' : String) :
    List.lookup k' (dinsert l k v) =
      if k' = k then some v else List.lookup k' l := by
  unfold dinsert
  by_cases hc : (l.map Prod.fst).contains k = true
  · rw [if_pos hc, lookup_map_set, if_pos hc]
  · rw [if_neg hc]
    have hnm : k ∉ l.map Prod.fst := by
      intro hmem
      exact hc (by simpa using hmem)
    by_cases hk : k' = k
    · have hnm' : k' ∉ l.map Prod.fst := hk.symm ▸ hnm
      rw [lookup_append_last k v l k' (Or.inl hnm'), if_pos hk, if_pos hk, if_neg hnm']
    · rw [lookup_append_last k v l k' (Or.inr hk), if_neg hk, if_neg hk]

theorem nodup_keys_dinsert {β : Type} (l : List (String × β)) (k : String) (v : β)
    (hnd : (l.map Prod.fst).Nodup) : ((dinsert l k v).map Prod.fst).Nodup := by
  rw [keys_dinsert]
  by_cases hc : (l.map Prod.fst).contains k = true
  · rw [if_pos hc]
    exact hnd
  · rw [if_neg hc]
    have hnm : k ∉ l.map Prod.fst := fun hm => hc (by simpa using hm)
    simp [List.nodup_append, hnd, hnm]

theorem assoc_ext {β : Type} :
    ∀ (l₁ l₂ : List (String × β)), l₁.map Prod.fst = l₂.map Prod.fst →
    (l₁.map Prod.fst).Nodup →
    (∀ k, List.lookup k l₁ = List.lookup k l₂) → l₁ = l₂ := by
  intro l₁
  induction l₁ with
  | nil =>
    intro l₂ hk _ _
    cases l₂ with
    | nil => rfl
    | cons q t₂ => exact absurd hk (by simp)
  | cons p t ih =>
    intro l₂ hk hnd hlook
    obtain ⟨a, b⟩ := p
    cases l₂ with
    | nil => exact absurd hk (by simp)
    | cons q t₂ =>
      obtain ⟨a₂, b₂⟩ := q
      have hk' := hk
      simp only [List.map_cons] at hk'
      obtain ⟨ha, htl⟩ := List.cons.inj hk'
      subst ha
      have hv : b = b₂ := by
        have := hlook a
        simp [List.lookup] at this
        exact this
      subst hv
      have hndt : (t.map Prod.fst).Nodup := by
        simp only [List.map_cons, List.nodup_cons] at hnd
        exact hnd.2
      have hna : a ∉ t.map Prod.fst := by
        simp only [List.map_cons, List.nodup_cons] at hnd
        exact hnd.1
      have hna₂ : a ∉ t₂.map Prod.fst := htl ▸ hna
      have hlook' : ∀ k, List.lookup k t = List.lookup k t₂ := by
        intro k
        by_cases hka : k = a
        · subst hka
          have h1 : List.lookup k t = none := by
            rw [List.lookup_eq_none_iff]
            intro p hp
            have : p.1 ∈ t.map Prod.fst := List.mem_map_of_mem Prod.fst hp
            have hne : k ≠ p.1 := fun he => hna (he ▸ this)
            simpa using hne
          have h2 : List.lookup k t₂ = none := by
            rw [List.lookup_eq_none_iff]
            intro p hp
            have : p.1 ∈ t₂.map Prod.fst := List.mem_map_of_mem Prod.fst hp
            have hne : k ≠ p.1 := fun he => hna₂ (he ▸ this)
            simpa using hne
          rw [h1, h2]
        · have := hlook k
          have hbe : (k == a) = false := by simpa using hka
          simpa [List.lookup, hbe] using this
      rw [ih t₂ htl hndt hlook']

theorem tool_result_step_eq (acc : List (String × JsonVal)) (tr : JsonVal) :
    tool_result_step acc tr =
      match fragKey tr with
      | some fk => dinsert acc fk (fragContent tr)
      | none => acc := by
  cases tr with
  | obj fs =>
    by_cases hp : pyTruthy ((List.lookup "tool_use_id" fs).getD .null) = true
    · simp [tool_result_step, fragKey, fragContent, hp]
    · simp [tool_result_step, fragKey, fragContent, hp]
  | null => rfl
  | bool b => rfl
  | num n => rfl
  | str s => rfl
  | arr xs => rfl

theorem keys_foldl_mono (frs : List JsonVal) :
    ∀ (l : List (String × JsonVal)) (k : String),
    k ∈ l.map Prod.fst → k ∈ (frs.foldl tool_result_step l).map Prod.fst := by
  induction frs with
  | nil => intro l k h; exact h
  | cons tr rest ih =>
    intro l k h
    rw [List.foldl_cons]
    apply ih
    rw [tool_result_step_eq]
    cases hf : fragKey tr with
    | none => exact h
    | some fk =>
      rw [keys_dinsert]
      split
      · exact h
      · exact List.mem_append_left _ h

theorem frag_keys_mem (frs : List JsonVal) :
    ∀ (l : List (String × JsonVal)) (tr : JsonVal), tr ∈ frs →
    ∀ fk, fragKey tr = some fk →
    fk ∈ (frs.foldl tool_result_step l).map Prod.fst := by
  induction frs with
  | nil => intro l tr h; exact absurd h (List.not_mem_nil tr)
  | cons tr0 rest ih =>
    intro l tr h fk hf
    rw [List.foldl_cons]
    rcases List.mem_cons.mp h with rfl | ht
    · apply keys_foldl_mono
      rw [tool_result_step_eq, hf, keys_dinsert]
      split
      · rename_i hc
        simpa using hc
      · simp
    · exact ih _ tr ht fk hf

theorem keys_foldl_stable (frs : List JsonVal) :
    ∀ (l : List (String × JsonVal)),
    (∀ tr ∈ frs, ∀ fk, fragKey tr = some fk → fk ∈ l.map Prod.fst) →
    (frs.foldl tool_result_step l).map Prod.fst = l.map Prod.fst := by
  induction frs with
  | nil => intro l _; rfl
  | cons tr rest ih =>
    intro l hall
    rw [List.foldl_cons, tool_result_step_eq]
    cases hf : fragKey tr with
    | none => exact ih l (fun tr' h' => hall tr' (List.mem_cons_of_mem _ h'))
    | some fk =>
      have hmem : fk ∈ l.map Prod.fst := hall tr (List.mem_cons_self _ _) fk hf
      have hkeys : (dinsert l fk (fragContent tr)).map Prod.fst = l.map Prod.fst := by
        rw [keys_dinsert, if_pos (by simpa using hmem)]
      rw [ih (dinsert l fk (fragContent tr))
        (by
          intro tr' h' fk' hf'
          rw [hkeys]
          exact hall tr' (List.mem_cons_of_mem _ h') fk' hf'), hkeys]

theorem lookup_foldl (frs : List JsonVal) :
    ∀ (l : List (String × JsonVal)) (k : String),
    List.lookup k (frs.foldl tool_result_step l) =
      match lastVal k frs with
      | some v => some v
      | none => List.lookup k l := by
  induction frs with
  | nil => intro l k; rfl
  | cons tr rest ih =>
    intro l k
    rw [List.foldl_cons, ih]
    cases hl : lastVal k rest with
    | some v =>
      rw [show lastVal k (tr :: rest) = some v from by unfold lastVal; rw [hl]]
    | none =>
      have hrhs : lastVal k (tr :: rest) =
          (match fragKey tr with
           | some fk => if fk = k then some (fragContent tr) else none
           | none => none) := by
        unfold lastVal
        rw [hl]
      rw [hrhs, tool_result_step_eq]
      cases hf : fragKey tr with
      | none => rfl
      | some fk =>
        rw [lookup_dinsert]
        by_cases hfk : fk = k
        · simp [hfk]
        · have hkf : ¬ k = fk := fun he => hfk he.symm
          simp [hfk, hkf]

theorem nodup_foldl (frs : List JsonVal) :
    ∀ (l : List (String × JsonVal)), (l.map Prod.fst).Nodup →
    ((frs.foldl tool_result_step l).map Prod.fst).Nodup := by
  induction frs with
  | nil => intro l h; exact h
  | cons tr rest ih =>
    intro l h
    rw [List.foldl_cons, tool_result_step_eq]
    cases hf : fragKey tr with
    | none => exact ih l h
    | some fk => exact ih _ (nodup_keys_dinsert l fk _ h)

/-- Replaying the whole tool-result update of a message over an
already-updated map changes nothing: every id it writes is already present
with its final (last-write-wins) value. -/
theorem apply_tool_results_idem (tools : List (String × JsonVal))
    (content : JsonVal) (hnd : (tools.map Prod.fst).Nodup) :
    apply_tool_results (apply_tool_results tools content) content =
      apply_tool_results tools content := by
  unfold apply_tool_results
  apply assoc_ext
  · apply keys_foldl_stable
    intro tr htr fk hf
    exact frag_keys_mem (iter_tool_results content) tools tr htr fk hf
  · exact nodup_foldl _ _ (nodup_foldl _ tools hnd)
  · intro k
    rw [lookup_foldl (iter_tool_results content)
        ((iter_tool_results content).foldl tool_result_step tools) k,
      lookup_foldl (iter_tool_results content) tools k]
    cases hl : lastVal k (iter_tool_results content) with
    | some v => rfl
    | none => rfl

/-- C9: processing the same tool-result message any number of times leaves
the loop state exactly as processing it once — the id→result map keeps a
single last-write-wins entry per id (its key list stays duplicate-free) —
and a tool-result message never changes the accumulated turns, the open
user message, or the assistant accumulators (it neither opens nor closes a
turn). -/
theorem bstep_tool_result_repeat (st : BState) (m : JsonVal) (n : Nat)
    (hm : is_tool_result m = .ok true)
    (hnd : (st.tool_results_by_id.map Prod.fst).Nodup) :
    ∃ st', bstep st m = .ok st' ∧
      List.foldlM bstep st (List.replicate (n + 1) m) = .ok st' ∧
      st'.turns = st.turns ∧
      st'.current_user = st.current_user ∧
      st'.assistant_order = st.assistant_order ∧
      st'.assistant_latest = st.assistant_latest ∧
      ((st'.tool_results_by_id).map Prod.fst).Nodup := by
  obtain ⟨fs, rfl⟩ : ∃ fs, m = JsonVal.obj fs := by
    cases m with
    | obj fs => exact ⟨fs, rfl⟩
    | null => exact Except.noConfusion hm
    | bool b => exact Except.noConfusion hm
    | num n2 => exact Except.noConfusion hm
    | str s => exact Except.noConfusion hm
    | arr xs => exact Except.noConfusion hm
  have htf : tool_result_flag fs = true := Except.ok.inj hm
  refine ⟨⟨st.turns, st.current_user, st.assistant_order, st.assistant_latest,
    apply_tool_results st.tool_results_by_id (get_content (.obj fs))⟩,
    bstep_tool_eq st fs htf, ?_, rfl, rfl, rfl, rfl, ?_⟩
  · have hfix : bstep ⟨st.turns, st.current_user, st.assistant_order, st.assistant_latest,
        apply_tool_results st.tool_results_by_id (get_content (.obj fs))⟩ (JsonVal.obj fs) =
        .ok ⟨st.turns, st.current_user, st.assistant_order, st.assistant_latest,
          apply_tool_results st.tool_results_by_id (get_content (.obj fs))⟩ := by
      rw [bstep_tool_eq _ fs htf]
      have hi := apply_tool_results_idem st.tool_results_by_id (get_content (.obj fs)) hnd
      rw [show apply_tool_results
          (apply_tool_results st.tool_results_by_id (get_content (JsonVal.obj fs)))
          (get_content (JsonVal.obj fs)) =
          apply_tool_results st.tool_results_by_id (get_content (JsonVal.obj fs)) from hi]
    have hrep : ∀ k, List.foldlM bstep
        ⟨st.turns, st.current_user, st.assistant_order, st.assistant_latest,
         apply_tool_results st.tool_results_by_id (get_content (.obj fs))⟩
        (List.replicate k (JsonVal.obj fs)) =
        .ok ⟨st.turns, st.current_user, st.assistant_order, st.assistant_latest,
          apply_tool_results st.tool_results_by_id (get_content (.obj fs))⟩ := by
      intro k
      induction k with
      | zero => rfl
      | succ k2 ihk => rw [List.replicate_succ, List.foldlM_cons, hfix, ok_bind, ihk]
    rw [List.replicate_succ, List.foldlM_cons, bstep_tool_eq st fs htf, ok_bind, hrep n]
  · show ((apply_tool_results st.tool_results_by_id (get_content (.obj fs))).map
      Prod.fst).Nodup
    unfold apply_tool_results
    exact nodup_foldl _ _ hnd

theorem bstep_tool_result_repeat_witness :
    is_tool_result trMsgW = .ok true ∧
    ((initB.tool_results_by_id.map Prod.fst).Nodup) ∧
    ∃ st', bstep initB trMsgW = .ok st' ∧
      List.foldlM bstep initB (List.replicate 3 trMsgW) = .ok st' ∧
      st'.turns = initB.turns ∧
      st'.current_user = initB.current_user ∧
      st'.assistant_order = initB.assistant_order ∧
      st'.assistant_latest = initB.assistant_latest ∧
      ((st'.tool_results_by_id).map Prod.fst).Nodup := by
  refine ⟨rfl, by show (([] : List (String × JsonVal)).map Prod.fst).Nodup; simp, ?_⟩
  exact bstep_tool_result_repeat initB trMsgW 2 rfl
    (by show (([] : List (String × JsonVal)).map Prod.fst).Nodup; simp)

theorem read_new_jsonl_turn_count (parse : List Char → Option JsonVal)
    (file : Option (List Char)) (read_ok : Bool) (ss : SessionState) :
    (read_new_jsonl parse file read_ok ss).2.turn_count = ss.turn_count := by
  match file with
  | none => rfl
  | some content =>
    unfold read_new_jsonl
    by_cases hr : read_ok
    · simp only [hr, Bool.not_true, if_false]
      by_cases hchunk : (content.drop ss.offset).isEmpty
      · simp [hchunk]
      · simp [hchunk]
    · simp at hr
      simp [hr]

/-- C3: when the engine reaches the dispatch loop with K assembled turns,
it emits them in order with turn numbers stored+1 … stored+K (independent
of which `emit_turn` calls raise: the emit outcome function does not appear
in the conclusion), persists turn_count increased by exactly K, exits 0,
and calls shutdown. -/
theorem mainRun_dispatch (env : Env) (sid : JsonVal) (tp : String)
    (content : List Char) (msgs : List JsonVal) (ss1 : SessionState)
    (turns : List Turn)
    (h1 : env.enabled = true)
    (h2 : env.provider_name ≠ "")
    (h3 : env.provider_ok = true)
    (h4 : extract_session_and_transcript env.resolve env.payload = .ok (sid, some tp))
    (h5 : pyTruthy sid = true)
    (h6 : env.fs tp = some content)
    (h7 : read_new_jsonl env.parse (some content) env.read_ok
      (load_session_state env.state0 (state_key env.hashF (pyStr sid) tp)) = (msgs, ss1))
    (h8 : build_turns msgs = .ok turns)
    (h9 : turns ≠ []) :
    (mainRun env).emits.map Prod.fst =
      (List.range turns.length).map (fun i => ss1.turn_count + 1 + i) ∧
    (mainRun env).saved = some (write_session_state env.state0
      (state_key env.hashF (pyStr sid) tp)
      ⟨ss1.offset, ss1.buffer, ss1.turn_count + turns.length⟩) ∧
    (mainRun env).exitCode = some 0 ∧
    (mainRun env).shutdownCalled = true ∧
    ss1.turn_count =
      (load_session_state env.state0 (state_key env.hashF (pyStr sid) tp)).turn_count := by
  have hne : msgs ≠ [] := by
    intro hmsgs
    rw [hmsgs] at h8
    exact h9 (Except.ok.inj (h8 : Except.ok ([] : List Turn) = Except.ok turns)).symm
  have hmE : msgs.isEmpty = false := by
    cases msgs with
    | nil => exact absurd rfl hne
    | cons a t => rfl
  have htE : turns.isEmpty = false := by
    cases turns with
    | nil => exact absurd rfl h9
    | cons a t => rfl
  have htc : ss1.turn_count =
      (load_session_state env.state0 (state_key env.hashF (pyStr sid) tp)).turn_count := by
    have := read_new_jsonl_turn_count env.parse (some content) env.read_ok
      (load_session_state env.state0 (state_key env.hashF (pyStr sid) tp))
    rw [h7] at this
    exact this
  have hmain : mainRun env = ⟨some 0,
      some (write_session_state env.state0 (state_key env.hashF (pyStr sid) tp)
        ⟨ss1.offset, ss1.buffer, ss1.turn_count + turns.length⟩),
      (List.range turns.length).map
        (fun i => (ss1.turn_count + 1 + i, env.emit_fails (ss1.turn_count + 1 + i))),
      true, true, true⟩ := by
    unfold mainRun
    rw [h1, h3]
    simp only [Bool.not_true, Bool.false_eq_true, if_false, if_neg h2]
    rw [h4]
    simp only []
    rw [h5]
    simp only []
    rw [h6]
    simp only []
    rw [h7]
    simp only [hmE, Bool.false_eq_true, if_false]
    rw [h8]
    simp only [htE, Bool.false_eq_true, if_false]
  rw [hmain]
  refine ⟨by simp, rfl, rfl, rfl, htc⟩

theorem mainRun_dispatch_witness :
    (mainRun envC3).emits.map Prod.fst = [1] ∧
    (mainRun envC3).exitCode = some 0 ∧
    (mainRun envC3).shutdownCalled = true := by
  have h := mainRun_dispatch envC3 (.str "s") "/t" ("u\na\n".data) [uMsgW, aMsgW]
    ⟨4, [], 0⟩ [⟨uMsgW, [aMsgW], []⟩] rfl (by decide) rfl rfl rfl rfl rfl rfl
    (List.cons_ne_nil _ _)
  refine ⟨?_, h.2.2.1, h.2.2.2.1⟩
  rw [h.1]
  rfl

/-- C4 (amended): when the engine reaches payload inspection (feature flag
on, provider name set, provider constructed) and extraction succeeds but
yields no truthy session id or no transcript path, the invocation exits 0
and writes no session state — but the provider has already been
constructed before the payload was inspected. -/
theorem mainRun_missing_payload (env : Env) (sid : JsonVal) (tpath : Option String)
    (h1 : env.enabled = true) (h2 : env.provider_name ≠ "")
    (h3 : env.provider_ok = true)
    (h4 : extract_session_and_transcript env.resolve env.payload = .ok (sid, tpath))
    (h5 : pyTruthy sid = false ∨ tpath = none) :
    (mainRun env).exitCode = some 0 ∧ (mainRun env).saved = none ∧
    (mainRun env).emits = [] ∧ (mainRun env).providerConstructed = true := by
  have hmain : mainRun env = ⟨some 0, none, [], true, false, false⟩ := by
    unfold mainRun
    rw [h1, h3]
    simp only [Bool.not_true, Bool.false_eq_true, if_false, if_neg h2]
    rw [h4]
    simp only []
    rcases h5 with h5 | h5
    · rw [h5]
      cases tpath with
      | none => rfl
      | some tp => rfl
    · rw [h5]
  rw [hmain]
  exact ⟨rfl, rfl, rfl, rfl⟩

theorem mainRun_missing_payload_witness :
    (mainRun envC4).exitCode = some 0 ∧ (mainRun envC4).saved = none ∧
    (mainRun envC4).emits = [] ∧ (mainRun envC4).providerConstructed = true :=
  mainRun_missing_payload envC4 .null none rfl (by decide) rfl rfl (Or.inr rfl)

/-- C4 counterexample: with the feature flag on and a constructible
provider, an empty stdin payload (no session id, no transcript path) still
exits 0 with no state written — but the provider *was* constructed, because
`_create_provider` runs before the payload is read (`hook.py` lines
407-416), contradicting the claim's "constructs no sink/provider". -/
theorem mainRun_provider_constructed_counterexample :
    extract_session_and_transcript envC4.resolve envC4.payload = .ok (.null, none) ∧
    (mainRun envC4).exitCode = some 0 ∧
    (mainRun envC4).saved = none ∧
    (mainRun envC4).providerConstructed = true :=
  ⟨rfl, rfl, rfl, rfl⟩

/-- C5: the code violates the claim.  On the early guard exit for a payload
with no session id — after the provider was successfully constructed — the
function returns at `hook.py` line 416, *before* the `try`/`finally` whose
`finally` is the only place `provider.shutdown()` is called; shutdown is
never invoked on this path. -/
theorem mainRun_shutdown_skipped :
    (mainRun envC5).providerConstructed = true ∧
    (mainRun envC5).shutdownCalled = false ∧
    (mainRun envC5).exitCode = some 0 :=
  ⟨rfl, rfl, rfl⟩
